import Mathlib

/-
Verification development for an Ant Colony Optimization engine for a
knapsack-style bank-robbery problem (Rust crate: src/graph, src/ant,
src/algorithm).  The Rust code is shallowly embedded: f64 values become
exact rationals, the pheromone matrix Vec<Vec<f64>> becomes a total
function on indices, panics and fuel-exhaustion become Option.none, and
every random draw becomes an explicit oracle argument.  f64 powf is kept
abstract as a function parameter `powf`.  An IEEE NaN produced by the 0/0
division in calculate_edge_probability is modelled by Option.none, whose
comparisons are false, exactly like NaN comparisons in Rust.
-/

/-- One bag (item): mirrors struct Bag in src/graph/mod.rs.  The field h is
the precomputed heuristic value ratio^beta. -/
structure Bag where
  number : Int
  weight : ℚ
  cost : ℚ
  ratio : ℚ
  h : ℚ
deriving DecidableEq

/-- Placeholder bag used for the (never legitimately taken) out-of-bounds
index case of Rust panicking indexing. -/
def defBag : Bag := ⟨0, 0, 0, 0, 0⟩

/-- Pheromone store: mirrors struct Tau.  The Vec<Vec<f64>> matrix is
embedded as a total function on index pairs. -/
structure Tau where
  matrix : ℕ → ℕ → ℚ

/-- Mirrors Tau::new, a matrix filled with 0.0. -/
def Tau.new : Tau := ⟨fun _ _ => 0⟩

/-- Mirrors Tau::set_edge: writes cell (i, j) when i < j, else cell (j, i). -/
def Tau.set_edge (t : Tau) (bag_i bag_j : ℕ) (value : ℚ) : Tau :=
  if bag_i < bag_j then
    ⟨fun a b => if a = bag_i ∧ b = bag_j then value else t.matrix a b⟩
  else
    ⟨fun a b => if a = bag_j ∧ b = bag_i then value else t.matrix a b⟩

/-- Mirrors Tau::get_edge: reads cell (i, j) when i < j, else cell (j, i). -/
def Tau.get_edge (t : Tau) (bag_i bag_j : ℕ) : ℚ :=
  if bag_i < bag_j then t.matrix bag_i bag_j else t.matrix bag_j bag_i

/-- Mirrors Tau::add_to_edge: increments cell (i, j) when i < j, else (j, i). -/
def Tau.add_to_edge (t : Tau) (bag_i bag_j : ℕ) (value : ℚ) : Tau :=
  if bag_i < bag_j then
    ⟨fun a b => if a = bag_i ∧ b = bag_j then t.matrix a b + value else t.matrix a b⟩
  else
    ⟨fun a b => if a = bag_j ∧ b = bag_i then t.matrix a b + value else t.matrix a b⟩

/-- The canonical (ordered) form of an index pair: the cell all three Tau
operations actually touch. -/
def canonPair (p : ℕ × ℕ) : ℕ × ℕ :=
  if p.1 < p.2 then p else (p.2, p.1)

/-- Mirrors struct Graph: capacity, node count, bag list and pheromones. -/
structure Graph where
  max_weight : ℚ
  nodes : ℕ
  graph : List Bag
  tau : Tau

/-- Indexing self.graph[i]; the Rust Vec indexing panic case yields defBag
(all in-spec uses are in bounds). -/
def Graph.bagAt (g : Graph) (i : ℕ) : Bag := g.graph.getD i defBag

/-- Mirrors Graph::get_availible_bags: all indices of bags distinct from the
current bag, unvisited, and within the remaining weight allowance.  Rust
iterates graph.iter().enumerate(); the index range plus indexed lookup is
the same enumeration. -/
def Graph.get_availible_bags (g : Graph) (current_bag : ℕ) (visited_bags : List ℕ)
    (allowed_weight : ℚ) : List ℕ :=
  (List.range g.graph.length).filter
    (fun i => decide (i ≠ current_bag ∧ i ∉ visited_bags ∧ (g.bagAt i).weight ≤ allowed_weight))

section SelectionDefs

variable (powf : ℚ → ℚ → ℚ)

/-- The denominator of the selection rule: the sum over the candidate bags of
trail^alpha * h, exactly the inline sum in Graph::calculate_edge_probability. -/
def selection_weight_sum (g : Graph) (bag_i : ℕ) (availible_bags : List ℕ) (alpha : ℚ) : ℚ :=
  (availible_bags.map (fun bag => powf (g.tau.get_edge bag_i bag) alpha * (g.bagAt bag).h)).sum

/-- Mirrors Graph::calculate_edge_probability.  When the denominator is zero
the Rust f64 division produces NaN; that outcome is modelled as none. -/
def calculate_edge_probability (g : Graph) (bag_i bag_j : ℕ) (availible_bags : List ℕ)
    (alpha : ℚ) : Option ℚ :=
  let t : ℚ := powf (g.tau.get_edge bag_i bag_j) alpha
  let h : ℚ := (g.bagAt bag_j).h
  let s : ℚ := selection_weight_sum powf g bag_i availible_bags alpha
  if s = 0 then none else some (t * h / s)

/-- NaN-propagating addition used by the cumulative-sum scan. -/
def addOpt : Option ℚ → Option ℚ → Option ℚ
  | some a, some b => some (a + b)
  | _, _ => none

/-- The running cumulative sum of the scan in Graph::create_selection_wheel
(one output per element, no leading initial value, NaN propagating). -/
def scanAcc : Option ℚ → List (Option ℚ) → List (Option ℚ)
  | _, [] => []
  | acc, p :: ps =>
    let acc' := addOpt acc p
    acc' :: scanAcc acc' ps

/-- Mirrors Graph::create_selection_wheel: per-candidate probabilities then
their cumulative sums. -/
def create_selection_wheel (g : Graph) (bag_i : ℕ) (availible_bags : List ℕ)
    (alpha : ℚ) : List (Option ℚ) :=
  scanAcc (some 0)
    (availible_bags.map (fun bag => calculate_edge_probability powf g bag_i bag availible_bags alpha))

/-- The find of select_path: first candidate whose cumulative rank is >= the
draw; a NaN rank (none) never satisfies the comparison, as in IEEE f64. -/
def wheel_find (choice : ℚ) : List (ℕ × Option ℚ) → Option ℕ
  | [] => none
  | p :: rest =>
    match p.2 with
    | some rank => if choice ≤ rank then some p.1 else wheel_find choice rest
    | none => wheel_find choice rest

/-- Mirrors Graph::select_path; the random draw in 0..=1 is the explicit
argument choice. -/
def select_path (g : Graph) (bag_i : ℕ) (availible_bags : List ℕ) (alpha choice : ℚ) :
    Option ℕ :=
  if availible_bags.length = 1 then some (availible_bags.getD 0 0)
  else wheel_find choice (availible_bags.zip (create_selection_wheel powf g bag_i availible_bags alpha))

end SelectionDefs

/-- Mirrors Graph::evaporation_edges: the double loop over the hard-coded
index range 0..100 multiplying each visited cell by the rate. -/
def Graph.evaporation_edges (g : Graph) (evaporation_rate : ℚ) : Graph :=
  { g with
    tau := (List.range 100).foldl
      (fun t i => (List.range 100).foldl
        (fun t j => t.set_edge i j (t.get_edge i j * evaporation_rate)) t) g.tau }

/-- Mirrors Graph::deposit_phero: adds (tour_value * p_rate) / tour_weight to
the given edge. -/
def Graph.deposit_phero (g : Graph) (edge : ℕ × ℕ) (tour_value tour_weight p_rate : ℚ) :
    Graph :=
  { g with tau := g.tau.add_to_edge edge.1 edge.2 (tour_value * p_rate / tour_weight) }

/-- Mirrors Graph::initialize_tau: a fresh random value on every edge with
distinct endpoints; the random number generator is the oracle argument. -/
def Graph.initialize_tau (g : Graph) (oracle : ℕ → ℕ → ℚ) : Graph :=
  { g with
    tau := (List.range g.graph.length).foldl
      (fun t i => (List.range g.graph.length).foldl
        (fun t j => if i ≠ j then t.set_edge i j (oracle i j) else t) t) g.tau }

/-- One ant: mirrors struct Ant in src/ant/mod.rs. -/
structure Ant where
  current_bag : ℕ
  tour : List ℕ
  current_cost : ℚ
  current_weight : ℚ
deriving DecidableEq

/-- Mirrors Ant::birth: a fresh ant sitting on the given bag, whose cost and
weight already count that bag. -/
def Ant.birth (bag : ℕ) (g : Graph) : Ant :=
  ⟨bag, [bag], (g.bagAt bag).cost, (g.bagAt bag).weight⟩

/-- Mirrors Ant::calculate_allowed_weight. -/
def Ant.calculate_allowed_weight (a : Ant) (max_allowed_weight : ℚ) : ℚ :=
  max_allowed_weight - a.current_weight

/-- Mirrors Ant::calculate_tour_cost. -/
def Ant.calculate_tour_cost (a : Ant) (g : Graph) : ℚ :=
  (a.tour.map (fun bag => (g.bagAt bag).cost)).sum

/-- Mirrors Ant::calcluate_tour_weight (source spelling kept). -/
def Ant.calcluate_tour_weight (a : Ant) (g : Graph) : ℚ :=
  (a.tour.map (fun bag => (g.bagAt bag).weight)).sum

section AntColonyDefs

variable (powf : ℚ → ℚ → ℚ)

/-- Mirrors Ant::update_ant: one construction step of a single ant. -/
def Ant.update_ant (a : Ant) (g : Graph) (alpha choice : ℚ) : Ant :=
  let availible_bags :=
    g.get_availible_bags a.current_bag a.tour (a.calculate_allowed_weight g.max_weight)
  if availible_bags.isEmpty then a
  else
    match select_path powf g a.current_bag availible_bags alpha choice with
    | some new_bag =>
      ⟨new_bag, a.tour ++ [new_bag], a.current_cost + (g.bagAt new_bag).cost,
        a.current_weight + (g.bagAt new_bag).weight⟩
    | none => a

end AntColonyDefs

/-- Mirrors struct Colony. -/
structure Colony where
  graph : Graph
  ants : List Ant
  best_path : List ℕ × ℚ × ℚ
  num_of_fitness_evaluations : Int

/-- Mirrors Colony::are_all_tours_finished: no ant has an available bag left. -/
def Colony.are_all_tours_finished (c : Colony) : Bool :=
  c.ants.all (fun a =>
    (c.graph.get_availible_bags a.current_bag a.tour
      (a.calculate_allowed_weight c.graph.max_weight)).isEmpty)

/-- Mirrors Colony::new: pheromones initialized, no ants, zero best path and
zero evaluations. -/
def Colony.new (g : Graph) (tauOracle : ℕ → ℕ → ℚ) : Colony :=
  ⟨g.initialize_tau tauOracle, [], ([], 0, 0), 0⟩

/-- Mirrors Colony::init_ants: a fresh population, each member born on the bag
the random oracle picks for it. -/
def Colony.init_ants (c : Colony) (num_of_ants : Int) (starts : ℕ → ℕ) : Colony :=
  { c with ants := (List.range num_of_ants.toNat).map (fun k => Ant.birth (starts k) c.graph) }

section ColonyRunDefs

variable (powf : ℚ → ℚ → ℚ)

/-- Ant-indexed map used by Colony::time_step (each ant draws its own random
number, hence the index argument of the choice oracle). -/
def mapWithIdx (f : ℕ → Ant → Ant) : ℕ → List Ant → List Ant
  | _, [] => []
  | k, a :: rest => f k a :: mapWithIdx f (k + 1) rest

/-- Mirrors Colony::time_step: advance every ant by one step. -/
def Colony.time_step (c : Colony) (alpha : ℚ) (choices : ℕ → ℚ) : Colony :=
  { c with ants := mapWithIdx (fun k a => a.update_ant powf c.graph alpha (choices k)) 0 c.ants }

/-- Mirrors Colony::run_tours: step until every tour is finished.  The Rust
loop has no bound; the fuel argument models the number of steps still
allowed, with none for exhaustion (the code looping forever). -/
def Colony.run_tours : ℕ → Colony → ℚ → (ℕ → ℕ → ℚ) → Option Colony
  | 0, c, _, _ => if c.are_all_tours_finished then some c else none
  | fuel + 1, c, alpha, oracle =>
    if c.are_all_tours_finished then some c
    else Colony.run_tours fuel (c.time_step powf alpha (oracle 0)) alpha
      (fun s => oracle (s + 1))

end ColonyRunDefs

/-- The enumerate() on the ant cost list inside Colony::set_best_tour. -/
def enumList : ℕ → List ℚ → List (ℕ × ℚ)
  | _, [] => []
  | k, v :: rest => (k, v) :: enumList (k + 1) rest

/-- Rust Iterator::max_by with partial_cmp: keeps the later element on ties,
none on an empty list. -/
def maxByLast : List (ℕ × ℚ) → Option (ℕ × ℚ)
  | [] => none
  | x :: rest => some (rest.foldl (fun acc y => if acc.2 > y.2 then acc else y) x)

/-- Mirrors Colony::set_best_tour.  The outer none models the panic of the
unwrap on an empty population; otherwise the result mirrors the Rust
Option<String>: some msg when tours are unfinished (no state change beyond
none), none on success together with the updated colony. -/
def Colony.set_best_tour (c : Colony) : Option (Option String × Colony) :=
  if ¬ c.are_all_tours_finished then some (some (r"Failed: Ants have not finished their tour"), c)
  else
    match maxByLast (enumList 0 (c.ants.map (fun a => a.current_cost))) with
    | none => none
    | some iv =>
      match c.ants.get? iv.1 with
      | none => none
      | some top =>
        some (none, { c with
          num_of_fitness_evaluations := c.num_of_fitness_evaluations + (c.ants.length : Int),
          best_path := (top.tour, top.current_cost, top.current_weight) })

/-- The per-ant deposit loop body of Colony::update_edges: pheromone added on
every consecutive pair of the ant's tour; none models the unwrap panic on an
empty tour. -/
def deposit_ant (g : Graph) (a : Ant) (p_rate : ℚ) : Option Graph :=
  match a.tour with
  | [] => none
  | b0 :: rest =>
    some ((rest.foldl
      (fun (acc : Graph × ℕ) bag_j =>
        (acc.1.deposit_phero (acc.2, bag_j) (a.calculate_tour_cost g) (a.calcluate_tour_weight g)
          p_rate, bag_j))
      (g, b0)).1)

/-- The deposit loop over the whole population. -/
def depositAll (g : Graph) (ants : List Ant) (p_rate : ℚ) : Option Graph :=
  ants.foldl (fun og a => og.bind (fun gg => deposit_ant gg a p_rate)) (some g)

/-- Mirrors Colony::update_edges: best-tour bookkeeping (whose failure branch
is the ordering panic), evaporation, then the deposits. -/
def Colony.update_edges (c : Colony) (evaporation_rate p_rate : ℚ) : Option Colony :=
  match c.set_best_tour with
  | none => none
  | some (some _, _) => none
  | some (none, c1) =>
    (depositAll (c1.graph.evaporation_edges evaporation_rate) c1.ants p_rate).map
      (fun g2 => { c1 with graph := g2 })

/-- Mirrors Colony::calculate_total_colony_cost. -/
def Colony.calculate_total_colony_cost (c : Colony) : ℚ :=
  (c.ants.map (fun a => a.current_cost)).sum

/-- Mirrors Colony::calculate_average_cost. -/
def Colony.calculate_average_cost (c : Colony) : ℚ :=
  c.calculate_total_colony_cost / (c.ants.length : ℚ)

/-- Digit of a decimal character. -/
def digitVal (c : Char) : Option ℕ :=
  if c = '0' then some 0 else if c = '1' then some 1 else if c = '2' then some 2
  else if c = '3' then some 3 else if c = '4' then some 4 else if c = '5' then some 5
  else if c = '6' then some 6 else if c = '7' then some 7 else if c = '8' then some 8
  else if c = '9' then some 9 else none

/-- Accumulating decimal parser over characters. -/
def parseDigitsAux : ℕ → List Char → Option ℕ
  | acc, [] => some acc
  | acc, c :: rest =>
    match digitVal c with
    | some d => parseDigitsAux (acc * 10 + d) rest
    | none => none

/-- Non-empty all-digit parse. -/
def parseDigits : List Char → Option ℕ
  | [] => none
  | l => parseDigitsAux 0 l

/-- Model of str::parse::<f64> restricted to the integer fragment used by the
analyzed behaviours: optional sign then decimal digits; none models a parse
error (whose unwrap panics in load_data). -/
def parseNum (s : String) : Option ℚ :=
  match s.toList with
  | [] => none
  | c :: rest =>
    if c = '-' then (parseDigits rest).map (fun n => -(n : ℚ))
    else (parseDigits (c :: rest)).map (fun n => (n : ℚ))

/-- Model of str::strip_prefix. -/
def removeStart (s p : String) : Option String :=
  if s.startsWith p then some (s.drop p.length) else none

/-- Model of str::contains for a literal pattern. -/
def containsSubstr (s sub : String) : Bool :=
  (List.range (s.length + 1)).any (fun i => (s.drop i).startsWith sub)

section LoadDefs

variable (powf : ℚ → ℚ → ℚ)

/-- The while-let loop of load_data: scan the lines; on a line containing
"bag", consume the next two lines as weight and value (any missing line,
missing prefix or failed parse is an unwrap panic, modelled none); otherwise
keep scanning.  The heuristic h is ratio^beta via powf, as in Bag creation. -/
def parseBags (beta : ℚ) (number : Int) : List String → Option (List Bag)
  | [] => some []
  | line :: rest =>
    if containsSubstr line (r"bag") then
      match rest with
      | w :: v :: rest2 =>
        match ((removeStart w (r"weight: ")).bind parseNum,
               (removeStart v (r"value: ")).bind parseNum) with
        | (some weight, some cost) =>
          (parseBags beta (number + 1) rest2).map
            (fun bags => (⟨number, weight, cost, cost / weight,
              powf (cost / weight) beta⟩ : Bag) :: bags)
        | _ => none
      | _ => none
    else parseBags beta number rest

/-- Mirrors load_data over the file's lines: the bag loop, then the first
line stripped of the capacity prefix and parsed.  Every unwrap panic is
none.  No validation of weights or costs is performed anywhere. -/
def load_data (beta : ℚ) (lines : List String) : Option (ℚ × List Bag) :=
  match parseBags powf beta 0 lines with
  | none => none
  | some bags =>
    match lines with
    | [] => none
    | first :: _ =>
      ((removeStart first (r"security van capacity: ")).bind parseNum).map
        (fun max_weight => (max_weight, bags))

/-- Mirrors Graph::construct_graph (the file contents are the lines
argument). -/
def construct_graph (beta : ℚ) (lines : List String) : Option Graph :=
  (load_data powf beta lines).map (fun p => ⟨p.1, p.2.length, p.2, Tau.new⟩)

end LoadDefs

section RunDefs

variable (powf : ℚ → ℚ → ℚ)

/-- Mirrors init_aco in src/algorithm/mod.rs: build the graph from the
problem file, create the colony (initializing pheromones) and populate it. -/
def init_aco (lines : List String) (num_of_ants : Int) (beta : ℚ)
    (tauOracle : ℕ → ℕ → ℚ) (starts : ℕ → ℕ) : Option Colony :=
  (construct_graph powf beta lines).map
    (fun g => (Colony.new g tauOracle).init_ants num_of_ants starts)

/-- The while loop of run: keep iterating (repopulate, construct, update)
until the evaluation budget is met.  loopFuel bounds the number of
iterations the model will unfold; toursFuel bounds each construction phase. -/
def runLoop (alpha evaporation_rate p_rate : ℚ) (num_of_ants fitness_evals : Int)
    (toursFuel : ℕ) : ℕ → Colony → (ℕ → ℕ → ℕ) → (ℕ → ℕ → ℕ → ℚ) → Option Colony
  | 0, c, _, _ =>
    if c.num_of_fitness_evaluations < fitness_evals then none else some c
  | loopFuel + 1, c, starts, oracles =>
    if c.num_of_fitness_evaluations < fitness_evals then
      (Colony.run_tours powf toursFuel (c.init_ants num_of_ants (starts 0)) alpha
        (oracles 0)).bind
        (fun c1 => (c1.update_edges evaporation_rate p_rate).bind
          (fun c2 => runLoop alpha evaporation_rate p_rate num_of_ants fitness_evals toursFuel
            loopFuel c2 (fun k => starts (k + 1)) (fun k => oracles (k + 1))))
    else some c

/-- Mirrors run in src/algorithm/mod.rs.  The returned association list is
the results HashMap in insertion order; every inserted value is a single
rational score (the Rust code stores their decimal strings).  none models a
panic or fuel exhaustion (the Rust code not terminating). -/
def run (lines : List String) (alpha beta evaporation_rate : ℚ) (num_of_ants fitness_evals : Int)
    (p_rate : ℚ) (tauOracle : ℕ → ℕ → ℚ) (starts : ℕ → ℕ → ℕ) (oracles : ℕ → ℕ → ℕ → ℚ)
    (toursFuel loopFuel : ℕ) : Option (List (String × ℚ)) :=
  (init_aco powf lines num_of_ants beta tauOracle (starts 0)).bind
    (fun colony => (Colony.run_tours powf toursFuel colony alpha (oracles 0)).bind
      (fun c1 => (c1.update_edges evaporation_rate p_rate).bind
        (fun c2 =>
          (runLoop powf alpha evaporation_rate p_rate num_of_ants fitness_evals toursFuel
            loopFuel c2 (fun k => starts (k + 1)) (fun k => oracles (k + 1))).map
            (fun c3 =>
              [(r"initial_score", c2.best_path.2.1),
               (r"initial_avg", c2.calculate_average_cost),
               (r"final_score", c3.best_path.2.1),
               (r"final_avg", c3.calculate_average_cost)]))))

end RunDefs

/-- The function used by every concrete scenario below in place of the
abstract f64 powf: the identity in its first argument, which is the exact
behaviour of powf for exponent 1 (the default alpha of the program). -/
def pow0 : ℚ → ℚ → ℚ := fun x _ => x

/-- Harness for tour-construction reachability: an ant born at the given bag
after an arbitrary run of update steps, one random draw per step. -/
def construct_ant (powf : ℚ → ℚ → ℚ) (g : Graph) (alpha : ℚ) (start : ℕ) (steps : List ℚ) :
    Ant :=
  steps.foldl (fun a choice => a.update_ant powf g alpha choice) (Ant.birth start g)

/-- Concrete graph with three feasible unit bags and an all-zero trail store:
every selection weight vanishes. -/
def cexGraph3 : Graph :=
  ⟨100, 3, [⟨0, 1, 1, 1, 1⟩, ⟨1, 1, 1, 1, 1⟩, ⟨2, 1, 1, 1, 1⟩], Tau.new⟩

/-- An ant born on bag 0 of cexGraph3; bags 1 and 2 stay feasible. -/
def cexAnt3 : Ant := Ant.birth 0 cexGraph3

/-- A colony holding that single ant. -/
def cexColony3 : Colony := ⟨cexGraph3, [cexAnt3], ([], 0, 0), 0⟩

/-- Concrete problem whose only bag is heavier than the capacity (the spec's
own scenario has capacity 10 and an item of weight 11). -/
def heavyGraph : Graph := ⟨10, 1, [⟨0, 11, 100, 100/11, 100/11⟩], Tau.new⟩

/-- Two-bag graph for the best-so-far scenario: both bags weigh 6 against
capacity 10 (an ant finishes wherever it is born), costs 10 and 5. -/
def cexGraphBest : Graph :=
  ⟨10, 2, [⟨0, 6, 10, 5/3, 5/3⟩, ⟨1, 6, 5, 5/6, 5/6⟩], Tau.new⟩

/-- Colony whose single ant is born on the cost-10 bag. -/
def cexColonyBest : Colony := ⟨cexGraphBest, [Ant.birth 0 cexGraphBest], ([], 0, 0), 0⟩

/-- Two-bag problem (weights 4 against capacity 10) used by the C5 witness. -/
def posGraph : Graph :=
  ⟨10, 2, [⟨0, 4, 7, 7/4, 7/4⟩, ⟨1, 4, 7, 7/4, 7/4⟩], Tau.new⟩

/-- A colony produced by the model's own pipeline: Colony::new initializes
the pheromones (every off-diagonal in-range cell receives the oracle's
value 1/2 from the initialization range, the diagonal stays zero exactly as
in the program) and init_ants births one ant on bag 0. -/
def posColony : Colony := (Colony.new posGraph (fun _ _ => 1/2)).init_ants 1 (fun _ => 0)

/-- Problem file lines with a single bag of weight 4 and value 7. -/
def lines6 : List String :=
  [r"security van capacity: 10", r"bag 1", r"weight: 4", r"value: 7"]

/-- Problem file lines carrying a bag of negative weight. -/
def linesNeg : List String :=
  [r"security van capacity: 10", r"bag 1", r"weight: -5", r"value: 3"]

/- ===================  helper lemmas about the pheromone store  ========= -/

theorem canonPair_swap (i j : ℕ) : canonPair (j, i) = canonPair (i, j) := by
  unfold canonPair
  by_cases h : i < j
  · have h' : ¬ j < i := by omega
    simp [h, h']
  · by_cases h' : j < i
    · simp [h, h']
    · have hij : i = j := by omega
      subst hij
      simp

theorem Tau.set_edge_matrix (t : Tau) (i j : ℕ) (v : ℚ) :
    (t.set_edge i j v).matrix =
      fun a b => if (a, b) = canonPair (i, j) then v else t.matrix a b := by
  unfold Tau.set_edge canonPair
  by_cases h : i < j
  · funext a b
    simp [h, Prod.ext_iff]
  · funext a b
    simp [h, Prod.ext_iff]

theorem Tau.add_to_edge_matrix (t : Tau) (i j : ℕ) (v : ℚ) :
    (t.add_to_edge i j v).matrix =
      fun a b => if (a, b) = canonPair (i, j) then t.matrix a b + v else t.matrix a b := by
  unfold Tau.add_to_edge canonPair
  by_cases h : i < j
  · funext a b
    simp [h, Prod.ext_iff]
  · funext a b
    simp [h, Prod.ext_iff]

theorem Tau.get_edge_canon (t : Tau) (i j : ℕ) :
    t.get_edge i j = t.matrix (canonPair (i, j)).1 (canonPair (i, j)).2 := by
  unfold Tau.get_edge canonPair
  by_cases h : i < j <;> simp [h]

theorem Tau.get_set (t : Tau) (i j a b : ℕ) (v : ℚ) :
    (t.set_edge i j v).get_edge a b =
      if canonPair (a, b) = canonPair (i, j) then v else t.get_edge a b := by
  simp only [Tau.get_edge_canon, Tau.set_edge_matrix]

/-- C8: trail-store accesses are symmetric under canonicalization: reads of
(i, j) and (j, i) agree for i different from j, and writes (set and add)
through either argument order produce identical stores. -/
theorem c8_tau_symmetry (t : Tau) (i j : ℕ) (v d : ℚ) (_hij : i ≠ j) :
    t.get_edge i j = t.get_edge j i
    ∧ (t.set_edge i j v).matrix = (t.set_edge j i v).matrix
    ∧ (t.add_to_edge i j d).matrix = (t.add_to_edge j i d).matrix := by
  refine ⟨?_, ?_, ?_⟩
  · rw [Tau.get_edge_canon t i j, Tau.get_edge_canon t j i, canonPair_swap]
  · rw [Tau.set_edge_matrix, Tau.set_edge_matrix, canonPair_swap]
  · rw [Tau.add_to_edge_matrix, Tau.add_to_edge_matrix, canonPair_swap]

/-- Witness for C8 at the concrete pair (0, 1) on the fresh store. -/
theorem c8_witness :
    (0 : ℕ) ≠ 1
    ∧ (Tau.new.get_edge 0 1 = Tau.new.get_edge 1 0
      ∧ (Tau.new.set_edge 0 1 5).matrix = (Tau.new.set_edge 1 0 5).matrix
      ∧ (Tau.new.add_to_edge 0 1 7).matrix = (Tau.new.add_to_edge 1 0 7).matrix) :=
  ⟨by decide, c8_tau_symmetry Tau.new 0 1 5 7 (by decide)⟩

/-- C9: when exactly one feasible successor exists, select_path returns it
directly, for every random draw (so without consulting the randomness), and
the outcome is the same for any two draws. -/
theorem c9_single_candidate (powf : ℚ → ℚ → ℚ) (g : Graph) (bag_i b : ℕ)
    (alpha choice choice' : ℚ) :
    select_path powf g bag_i [b] alpha choice = some b
    ∧ select_path powf g bag_i [b] alpha choice = select_path powf g bag_i [b] alpha choice' := by
  constructor
  · simp [select_path]
  · simp [select_path]

/- ===================  evaporation characterization (C10)  ============== -/

theorem evapStep_get (r : ℚ) (t : Tau) (p : ℕ × ℕ) (a b : ℕ) :
    (t.set_edge p.1 p.2 (t.get_edge p.1 p.2 * r)).get_edge a b
    = if canonPair (a, b) = canonPair p then t.get_edge a b * r else t.get_edge a b := by
  rw [Tau.get_set]
  by_cases h : canonPair (a, b) = canonPair p
  · rw [if_pos h, if_pos h, Tau.get_edge_canon t p.1 p.2, Tau.get_edge_canon t a b, h]
  · rw [if_neg h, if_neg h]

theorem evapFold_get (r : ℚ) (L : List (ℕ × ℕ)) : ∀ (t : Tau) (a b : ℕ),
    ((L.foldl (fun t p => t.set_edge p.1 p.2 (t.get_edge p.1 p.2 * r)) t).get_edge a b)
    = t.get_edge a b * r ^ (L.countP (fun p => decide (canonPair p = canonPair (a, b)))) := by
  induction L with
  | nil => intro t a b; simp
  | cons p L ih =>
    intro t a b
    rw [List.foldl_cons, ih, evapStep_get]
    by_cases h : canonPair p = canonPair (a, b)
    · rw [List.countP_cons_of_pos _ _ (by simp [h]), if_pos h.symm, pow_succ]
      ring
    · rw [List.countP_cons_of_neg _ _ (by simp [h]), if_neg (fun hh => h hh.symm)]

theorem foldl_nested_eq (f : Tau → ℕ × ℕ → Tau) (is js : List ℕ) : ∀ (t : Tau),
    is.foldl (fun t i => js.foldl (fun t j => f t (i, j)) t) t
    = (is.flatMap (fun i => js.map (fun j => (i, j)))).foldl f t := by
  induction is with
  | nil => intro t; simp
  | cons i is ih =>
    intro t
    have hinner : ∀ t0 : Tau, (js.map (fun j => (i, j))).foldl f t0
        = js.foldl (fun t j => f t (i, j)) t0 := fun t0 => List.foldl_map _ _ _ _
    rw [List.foldl_cons, ih, List.flatMap_cons, List.foldl_append, hinner]

theorem countP_flatMap (is : List ℕ) (gf : ℕ → List (ℕ × ℕ)) (p : ℕ × ℕ → Bool) :
    (is.flatMap gf).countP p = (is.map (fun i => (gf i).countP p)).sum := by
  induction is with
  | nil => simp
  | cons i is ih => simp [List.flatMap_cons, List.countP_append, ih]

theorem countP_range_eq (n d : ℕ) :
    (List.range n).countP (fun j => decide (j = d)) = if d < n then 1 else 0 := by
  induction n with
  | zero => simp
  | succ n ih =>
    rw [List.range_succ, List.countP_append, ih]
    by_cases h : d < n
    · have h1 : ¬ n = d := by omega
      have h2 : d < n + 1 := by omega
      simp [h, h1, h2]
    · by_cases h2 : d = n
      · subst h2
        simp [h]
      · have h3 : ¬ d < n + 1 := by omega
        have h4 : ¬ n = d := by omega
        simp [h, h3, h4]

theorem sum_map_onePoint (c n : ℕ) :
    ((List.range n).map (fun i => if i = c then (1 : ℕ) else 0)).sum
    = if c < n then 1 else 0 := by
  induction n with
  | zero => simp
  | succ n ih =>
    rw [List.range_succ, List.map_append, List.sum_append, ih]
    by_cases h : c < n
    · have h1 : ¬ n = c := by omega
      have h2 : c < n + 1 := by omega
      simp [h, h1, h2]
    · by_cases h2 : c = n
      · subst h2
        simp [h]
      · have h3 : ¬ c < n + 1 := by omega
        have h4 : ¬ n = c := by omega
        simp [h, h3, h4]

theorem sum_map_addPoints (l : List ℕ) (u v : ℕ → ℕ) :
    (l.map (fun i => u i + v i)).sum = (l.map u).sum + (l.map v).sum := by
  induction l with
  | nil => simp
  | cons x l ih =>
    simp only [List.map_cons, List.sum_cons, ih]
    omega

theorem canonPair_mem (i j : ℕ) : canonPair (i, j) = (i, j) ∨ canonPair (i, j) = (j, i) := by
  unfold canonPair
  by_cases h : i < j <;> simp [h]

theorem canonPair_lt (i j : ℕ) (hij : i ≠ j) :
    (canonPair (i, j)).1 < (canonPair (i, j)).2 := by
  unfold canonPair
  by_cases h : i < j
  · simp [h]
  · simp [h]
    omega

theorem canonPair_eq_iff (c d i j : ℕ) (hcd : c < d) :
    canonPair (i, j) = (c, d) ↔ (i = c ∧ j = d) ∨ (i = d ∧ j = c) := by
  unfold canonPair
  by_cases h : i < j
  · simp only [h, if_pos, Prod.ext_iff]
    constructor
    · exact fun hh => Or.inl hh
    · rintro (hh | hh)
      · exact hh
      · omega
  · simp only [h, if_neg, Prod.ext_iff]
    constructor
    · rintro ⟨h1, h2⟩
      exact Or.inr ⟨h2, h1⟩
    · rintro (hh | hh)
      · omega
      · exact ⟨hh.2, hh.1⟩

theorem countP_row_eq (c d i0 : ℕ) (hcd : c < d) (hc : c < 100) (hd : d < 100) :
    ((List.range 100).map (fun b => (i0, b))).countP
      (fun p => decide (canonPair p = (c, d)))
    = (if i0 = c then 1 else 0) + (if i0 = d then 1 else 0) := by
  rw [List.countP_map]
  have hcomp : ((fun p => decide (canonPair p = (c, d))) ∘ fun b => (i0, b))
      = fun b => decide (canonPair (i0, b) = (c, d)) := rfl
  rw [hcomp]
  by_cases h1 : i0 = c
  · have hne : ¬ i0 = d := by omega
    have hiff : ∀ b ∈ List.range 100,
        (decide (canonPair (i0, b) = (c, d)) = true) ↔ (decide (b = d) = true) := by
      intro b _
      simp only [decide_eq_true_eq]
      rw [canonPair_eq_iff c d i0 b hcd]
      constructor
      · rintro (⟨_, hb⟩ | ⟨hid, _⟩)
        · exact hb
        · omega
      · intro hb
        exact Or.inl ⟨h1, hb⟩
    rw [List.countP_congr hiff, countP_range_eq]
    simp [h1, hd, hne]
    omega
  · by_cases h2 : i0 = d
    · have hiff : ∀ b ∈ List.range 100,
          (decide (canonPair (i0, b) = (c, d)) = true) ↔ (decide (b = c) = true) := by
        intro b _
        simp only [decide_eq_true_eq]
        rw [canonPair_eq_iff c d i0 b hcd]
        constructor
        · rintro (⟨hic, _⟩ | ⟨_, hb⟩)
          · omega
          · exact hb
        · intro hb
          exact Or.inr ⟨h2, hb⟩
      rw [List.countP_congr hiff, countP_range_eq]
      simp [h1, h2, hc]
      omega
    · have hzero : ((List.range 100).countP fun b => decide (canonPair (i0, b) = (c, d))) = 0 := by
        rw [List.countP_eq_zero]
        intro b _
        simp only [decide_eq_true_eq]
        rw [canonPair_eq_iff c d i0 b hcd]
        rintro (⟨hh, _⟩ | ⟨hh, _⟩)
        · exact h1 hh
        · exact h2 hh
      rw [hzero]
      simp [h1, h2]

/-- C10: one call to evaporation_edges multiplies every off-diagonal cell with
both indices below the hard-coded 100 by the rate twice (the double loop
visits each unordered pair in both orders and both orders canonicalize to the
same cell), while any cell with an index at or above 100 is left untouched
whatever the problem size. -/
theorem c10_evaporation_double (g : Graph) (rate : ℚ) (i j : ℕ) :
    (i ≠ j → i < 100 → j < 100 →
      (g.evaporation_edges rate).tau.get_edge i j = g.tau.get_edge i j * rate * rate)
    ∧ ((100 ≤ i ∨ 100 ≤ j) →
      (g.evaporation_edges rate).tau.get_edge i j = g.tau.get_edge i j) := by
  have hflat : (g.evaporation_edges rate).tau.get_edge i j
      = g.tau.get_edge i j * rate ^
        (((List.range 100).flatMap (fun a => (List.range 100).map (fun b => (a, b)))).countP
          (fun p => decide (canonPair p = canonPair (i, j)))) := by
    show ((List.range 100).foldl
        (fun t a => (List.range 100).foldl
          (fun t b => t.set_edge a b (t.get_edge a b * rate)) t) g.tau).get_edge i j = _
    rw [foldl_nested_eq (fun t p => t.set_edge p.1 p.2 (t.get_edge p.1 p.2 * rate)),
      evapFold_get]
  constructor
  · intro hij hi hj
    obtain ⟨c, d, hcd₀⟩ : ∃ c d, canonPair (i, j) = (c, d) := ⟨_, _, rfl⟩
    have hcd : c < d := by
      have := canonPair_lt i j hij
      rw [hcd₀] at this
      exact this
    have hbounds : c < 100 ∧ d < 100 := by
      rcases canonPair_mem i j with hm | hm
      · rw [hcd₀] at hm
        injection hm with h1 h2
        omega
      · rw [hcd₀] at hm
        injection hm with h1 h2
        omega
    have hcount : (((List.range 100).flatMap
        (fun a => (List.range 100).map (fun b => (a, b)))).countP
          (fun p => decide (canonPair p = canonPair (i, j)))) = 2 := by
      rw [hcd₀, countP_flatMap]
      have hmapeq : (List.range 100).map
          (fun i0 => ((List.range 100).map (fun b => (i0, b))).countP
            (fun p => decide (canonPair p = (c, d))))
          = (List.range 100).map
            (fun i0 => (if i0 = c then 1 else 0) + (if i0 = d then 1 else 0)) := by
        apply List.map_congr_left
        intro i0 _
        exact countP_row_eq c d i0 hcd hbounds.1 hbounds.2
      rw [hmapeq, sum_map_addPoints, sum_map_onePoint, sum_map_onePoint]
      simp [hbounds.1, hbounds.2]
    rw [hflat, hcount]
    ring
  · intro hout
    have hcount : (((List.range 100).flatMap
        (fun a => (List.range 100).map (fun b => (a, b)))).countP
          (fun p => decide (canonPair p = canonPair (i, j)))) = 0 := by
      rw [List.countP_eq_zero]
      intro q hq
      simp only [List.mem_flatMap, List.mem_map, List.mem_range] at hq
      obtain ⟨a, ha, b, hb, rfl⟩ := hq
      simp only [decide_eq_true_eq]
      intro heq
      rcases canonPair_mem a b with hm | hm <;> rcases canonPair_mem i j with hm' | hm' <;>
        rw [hm, hm'] at heq <;>
        · injection heq with h1 h2
          omega
    rw [hflat, hcount]
    simp

/-- Witness for C10: both conclusions at concrete cells (0, 1) and (0, 100)
of a concrete graph. -/
theorem c10_witness :
    ((0 : ℕ) ≠ 1 ∧ (0 : ℕ) < 100 ∧ (1 : ℕ) < 100
      ∧ ((⟨0, 0, [], Tau.new⟩ : Graph).evaporation_edges (1/2)).tau.get_edge 0 1
        = (⟨0, 0, [], Tau.new⟩ : Graph).tau.get_edge 0 1 * (1/2) * (1/2))
    ∧ ((100 : ℕ) ≤ 100
      ∧ ((⟨0, 0, [], Tau.new⟩ : Graph).evaporation_edges (1/2)).tau.get_edge 0 100
        = (⟨0, 0, [], Tau.new⟩ : Graph).tau.get_edge 0 100) :=
  ⟨⟨by decide, by decide, by decide,
    (c10_evaporation_double ⟨0, 0, [], Tau.new⟩ (1/2) 0 1).1 (by decide) (by decide) (by decide)⟩,
   ⟨by decide,
    (c10_evaporation_double ⟨0, 0, [], Tau.new⟩ (1/2) 0 100).2 (Or.inr (by decide))⟩⟩

/- ===================  availability and selection lemmas  =============== -/

theorem mem_availible {g : Graph} {cur : ℕ} {vis : List ℕ} {w : ℚ} {b : ℕ}
    (hb : b ∈ g.get_availible_bags cur vis w) :
    b < g.graph.length ∧ b ≠ cur ∧ b ∉ vis ∧ (g.bagAt b).weight ≤ w := by
  unfold Graph.get_availible_bags at hb
  simp only [List.mem_filter, List.mem_range, decide_eq_true_eq] at hb
  exact ⟨hb.1, hb.2.1, hb.2.2.1, hb.2.2.2⟩

theorem wheel_find_mem (choice : ℚ) : ∀ (l : List (ℕ × Option ℚ)) (b : ℕ),
    wheel_find choice l = some b → ∃ r, (b, r) ∈ l := by
  intro l
  induction l with
  | nil => intro b h; simp [wheel_find] at h
  | cons p rest ih =>
    intro b h
    obtain ⟨pb, pr⟩ := p
    cases pr with
    | some rank =>
      simp only [wheel_find] at h
      by_cases hc : choice ≤ rank
      · rw [if_pos hc] at h
        injection h with h
        exact ⟨some rank, h ▸ List.mem_cons_self _ _⟩
      · rw [if_neg hc] at h
        obtain ⟨r, hr⟩ := ih b h
        exact ⟨r, List.mem_cons_of_mem _ hr⟩
    | none =>
      simp only [wheel_find] at h
      obtain ⟨r, hr⟩ := ih b h
      exact ⟨r, List.mem_cons_of_mem _ hr⟩

theorem select_path_mem {powf : ℚ → ℚ → ℚ} {g : Graph} {bag_i : ℕ} {avail : List ℕ}
    {alpha choice : ℚ} {b : ℕ}
    (h : select_path powf g bag_i avail alpha choice = some b) : b ∈ avail := by
  unfold select_path at h
  by_cases hl : avail.length = 1
  · rw [if_pos hl] at h
    injection h with h
    subst h
    cases avail with
    | nil => simp at hl
    | cons x xs => simp [List.getD]
  · rw [if_neg hl] at h
    obtain ⟨r, hr⟩ := wheel_find_mem choice _ b h
    exact (List.of_mem_zip hr).1

/- ===================  C2: tour invariants  ============================= -/

theorem update_ant_nodup (powf : ℚ → ℚ → ℚ) (g : Graph) (alpha choice : ℚ) (a : Ant)
    (h : a.tour.Nodup) : (a.update_ant powf g alpha choice).tour.Nodup := by
  unfold Ant.update_ant
  by_cases he : (g.get_availible_bags a.current_bag a.tour
      (a.calculate_allowed_weight g.max_weight)).isEmpty
  · simp [he, h]
  · rw [if_neg he]
    cases hsel : select_path powf g a.current_bag
        (g.get_availible_bags a.current_bag a.tour
          (a.calculate_allowed_weight g.max_weight)) alpha choice with
    | none => exact h
    | some nb =>
      have hmem := select_path_mem hsel
      have hnb := mem_availible hmem
      simp only []
      rw [List.nodup_append]
      exact ⟨h, List.nodup_singleton _, by simp [List.disjoint_singleton, hnb.2.2.1]⟩

theorem update_ant_weight (powf : ℚ → ℚ → ℚ) (g : Graph) (alpha choice : ℚ) (a : Ant)
    (h : a.current_weight ≤ g.max_weight) :
    (a.update_ant powf g alpha choice).current_weight ≤ g.max_weight := by
  unfold Ant.update_ant
  by_cases he : (g.get_availible_bags a.current_bag a.tour
      (a.calculate_allowed_weight g.max_weight)).isEmpty
  · simp [he, h]
  · rw [if_neg he]
    cases hsel : select_path powf g a.current_bag
        (g.get_availible_bags a.current_bag a.tour
          (a.calculate_allowed_weight g.max_weight)) alpha choice with
    | none => exact h
    | some nb =>
      have hnb := mem_availible (select_path_mem hsel)
      have hw := hnb.2.2.2
      unfold Ant.calculate_allowed_weight at hw
      simp only []
      linarith

/-- C2 (amended): along any construction run the tour never holds a duplicate
bag id, and the running weight respects the capacity at every point provided
the birth bag itself fits within the capacity (which the code never checks). -/
theorem c2_tour_invariants (powf : ℚ → ℚ → ℚ) (g : Graph) (alpha : ℚ) (start : ℕ)
    (steps : List ℚ) :
    (construct_ant powf g alpha start steps).tour.Nodup
    ∧ ((g.bagAt start).weight ≤ g.max_weight →
        (construct_ant powf g alpha start steps).current_weight ≤ g.max_weight) := by
  unfold construct_ant
  induction steps using List.reverseRecOn with
  | nil =>
    constructor
    · simp [Ant.birth]
    · intro hw
      simpa [Ant.birth] using hw
  | append_singleton steps choice ih =>
    rw [List.foldl_append, List.foldl_cons, List.foldl_nil]
    constructor
    · exact update_ant_nodup powf g alpha choice _ ih.1
    · intro hw
      exact update_ant_weight powf g alpha choice _ (ih.2 hw)

/-- Witness for C2 at a concrete two-step construction on cexGraph3. -/
theorem c2_witness :
    ((construct_ant pow0 cexGraph3 1 0 [1/2, 1/2]).tour.Nodup
      ∧ ((cexGraph3.bagAt 0).weight ≤ cexGraph3.max_weight →
          (construct_ant pow0 cexGraph3 1 0 [1/2, 1/2]).current_weight
            ≤ cexGraph3.max_weight))
    ∧ (cexGraph3.bagAt 0).weight ≤ cexGraph3.max_weight :=
  ⟨c2_tour_invariants pow0 cexGraph3 1 0 [1/2, 1/2], by with_unfolding_all decide⟩

/-- Counterexample for C2 as stated: immediately after birth on the only bag
of heavyGraph (weight 11, capacity 10) the ant's weight_sum already exceeds
the capacity. -/
theorem c2_counterexample :
    ¬ (Ant.birth 0 heavyGraph).current_weight ≤ heavyGraph.max_weight := by
  with_unfolding_all decide

/- ===================  C3: zero selection weights  ====================== -/

theorem addOpt_none_right (x : Option ℚ) : addOpt x none = none := by
  cases x <;> rfl

theorem scanAcc_all_none : ∀ (l : List (Option ℚ)) (acc : Option ℚ),
    (∀ x ∈ l, x = none) → ∀ y ∈ scanAcc acc l, y = none := by
  intro l
  induction l with
  | nil => intro acc _ y hy; simp [scanAcc] at hy
  | cons p ps ih =>
    intro acc hall y hy
    have hp : p = none := hall p (List.mem_cons_self _ _)
    subst hp
    simp only [scanAcc, addOpt_none_right, List.mem_cons] at hy
    rcases hy with hy | hy
    · exact hy
    · exact ih none (fun x hx => hall x (List.mem_cons_of_mem _ hx)) y hy

theorem wheel_find_all_none (choice : ℚ) : ∀ (l : List (ℕ × Option ℚ)),
    (∀ p ∈ l, p.2 = none) → wheel_find choice l = none := by
  intro l
  induction l with
  | nil => intro _; rfl
  | cons p rest ih =>
    intro hall
    obtain ⟨pb, pr⟩ := p
    have hpr : pr = none := hall (pb, pr) (List.mem_cons_self _ _)
    subst hpr
    simp only [wheel_find]
    exact ih (fun q hq => hall q (List.mem_cons_of_mem _ hq))

theorem select_path_zero_sum {powf : ℚ → ℚ → ℚ} {g : Graph} {bag_i : ℕ} {avail : List ℕ}
    {alpha : ℚ} (hlen : 2 ≤ avail.length)
    (hsum : selection_weight_sum powf g bag_i avail alpha = 0) (choice : ℚ) :
    select_path powf g bag_i avail alpha choice = none := by
  unfold select_path
  rw [if_neg (by omega)]
  apply wheel_find_all_none
  intro p hp
  have hw := (List.of_mem_zip hp).2
  have hprob : ∀ x ∈ avail.map
      (fun bag => calculate_edge_probability powf g bag_i bag avail alpha), x = none := by
    intro x hx
    obtain ⟨bag, _, rfl⟩ := List.mem_map.1 hx
    unfold calculate_edge_probability
    simp [hsum]
  exact scanAcc_all_none _ _ hprob _ hw

theorem update_ant_zero_sum {powf : ℚ → ℚ → ℚ} {g : Graph} {alpha : ℚ} {a : Ant}
    (hlen : 2 ≤ (g.get_availible_bags a.current_bag a.tour
      (a.calculate_allowed_weight g.max_weight)).length)
    (hsum : selection_weight_sum powf g a.current_bag
      (g.get_availible_bags a.current_bag a.tour
        (a.calculate_allowed_weight g.max_weight)) alpha = 0) (choice : ℚ) :
    a.update_ant powf g alpha choice = a := by
  unfold Ant.update_ant
  have hne : ¬ (g.get_availible_bags a.current_bag a.tour
      (a.calculate_allowed_weight g.max_weight)).isEmpty := by
    cases hav : g.get_availible_bags a.current_bag a.tour
        (a.calculate_allowed_weight g.max_weight) with
    | nil => rw [hav] at hlen; simp at hlen
    | cons x xs => simp
  rw [if_neg hne, select_path_zero_sum hlen hsum choice]

theorem mapWithIdx_mem_fixed (f : ℕ → Ant → Ant) (a : Ant) (hfix : ∀ k, f k a = a) :
    ∀ (l : List Ant) (k : ℕ), a ∈ l → a ∈ mapWithIdx f k l := by
  intro l
  induction l with
  | nil => intro k h; simp at h
  | cons x xs ih =>
    intro k h
    rcases List.mem_cons.1 h with h | h
    · subst h
      rw [show mapWithIdx f k (a :: xs) = f k a :: mapWithIdx f (k + 1) xs from rfl, hfix k]
      exact List.mem_cons_self _ _
    · exact List.mem_cons_of_mem _ (ih (k + 1) h)

theorem not_finished_of_stalled {c : Colony} {a : Ant} (ha : a ∈ c.ants)
    (hlen : 2 ≤ (c.graph.get_availible_bags a.current_bag a.tour
      (a.calculate_allowed_weight c.graph.max_weight)).length) :
    c.are_all_tours_finished = false := by
  unfold Colony.are_all_tours_finished
  rw [List.all_eq_false]
  refine ⟨a, ha, ?_⟩
  cases hav : c.graph.get_availible_bags a.current_bag a.tour
      (a.calculate_allowed_weight c.graph.max_weight) with
  | nil => rw [hav] at hlen; simp at hlen
  | cons x xs => simp

/-- C3 (amended): when at least two candidates are available and the sum of
their selection weights is zero, select_path returns no bag (the NaN
probabilities satisfy no comparison), the ant is left unchanged — it does
not transition to Terminal — no error value is surfaced anywhere, and a
colony containing such an ant never finishes construction: run_tours fails
for every fuel bound instead of terminating. -/
theorem c3_zero_weight_stall (powf : ℚ → ℚ → ℚ) (g : Graph) (alpha : ℚ) (a : Ant)
    (hlen : 2 ≤ (g.get_availible_bags a.current_bag a.tour
      (a.calculate_allowed_weight g.max_weight)).length)
    (hsum : selection_weight_sum powf g a.current_bag
      (g.get_availible_bags a.current_bag a.tour
        (a.calculate_allowed_weight g.max_weight)) alpha = 0) :
    (∀ choice, select_path powf g a.current_bag
      (g.get_availible_bags a.current_bag a.tour
        (a.calculate_allowed_weight g.max_weight)) alpha choice = none)
    ∧ (∀ choice, a.update_ant powf g alpha choice = a)
    ∧ (∀ (c : Colony), c.graph = g → a ∈ c.ants →
        ∀ (fuel : ℕ) (oracle : ℕ → ℕ → ℚ),
          Colony.run_tours powf fuel c alpha oracle = none) := by
  refine ⟨fun choice => select_path_zero_sum hlen hsum choice,
    fun choice => update_ant_zero_sum hlen hsum choice, ?_⟩
  intro c hg ha fuel
  induction fuel generalizing c with
  | zero =>
    intro oracle
    have hnf : c.are_all_tours_finished = false := by
      subst hg
      exact not_finished_of_stalled ha hlen
    simp [Colony.run_tours, hnf]
  | succ fuel ih =>
    intro oracle
    have hnf : c.are_all_tours_finished = false := by
      subst hg
      exact not_finished_of_stalled ha hlen
    have hmem : a ∈ (c.time_step powf alpha (oracle 0)).ants := by
      unfold Colony.time_step
      exact mapWithIdx_mem_fixed _ a
        (fun k => by rw [hg]; exact update_ant_zero_sum hlen hsum (oracle 0 k)) c.ants 0 ha
    simp only [Colony.run_tours, hnf, Bool.false_eq_true, if_false]
    exact ih (c.time_step powf alpha (oracle 0)) (by simp [Colony.time_step, hg]) hmem _

/-- Witness for C3 at the concrete all-zero-trail colony cexColony3. -/
theorem c3_witness :
    2 ≤ (cexGraph3.get_availible_bags cexAnt3.current_bag cexAnt3.tour
      (cexAnt3.calculate_allowed_weight cexGraph3.max_weight)).length
    ∧ selection_weight_sum pow0 cexGraph3 cexAnt3.current_bag
      (cexGraph3.get_availible_bags cexAnt3.current_bag cexAnt3.tour
        (cexAnt3.calculate_allowed_weight cexGraph3.max_weight)) 1 = 0
    ∧ select_path pow0 cexGraph3 cexAnt3.current_bag
      (cexGraph3.get_availible_bags cexAnt3.current_bag cexAnt3.tour
        (cexAnt3.calculate_allowed_weight cexGraph3.max_weight)) 1 (1/2) = none
    ∧ cexAnt3.update_ant pow0 cexGraph3 1 (1/2) = cexAnt3
    ∧ Colony.run_tours pow0 3 cexColony3 1 (fun _ _ => 1/2) = none := by
  have h1 : 2 ≤ (cexGraph3.get_availible_bags cexAnt3.current_bag cexAnt3.tour
      (cexAnt3.calculate_allowed_weight cexGraph3.max_weight)).length := by
    with_unfolding_all decide
  have h2 : selection_weight_sum pow0 cexGraph3 cexAnt3.current_bag
      (cexGraph3.get_availible_bags cexAnt3.current_bag cexAnt3.tour
        (cexAnt3.calculate_allowed_weight cexGraph3.max_weight)) 1 = 0 := by
    with_unfolding_all decide
  have h3 := c3_zero_weight_stall pow0 cexGraph3 1 cexAnt3 h1 h2
  exact ⟨h1, h2, h3.1 (1/2), h3.2.1 (1/2),
    h3.2.2 cexColony3 rfl (List.mem_cons_self _ _) 3 (fun _ _ => 1/2)⟩

/-- Counterexample for C3 as stated: at the concrete zero-trail state the ant
does not transition to Terminal (its update leaves it unchanged while
successors remain available) and construction does not terminate — running
as many synchronous steps as the problem has items still fails to reach the
all-terminal state. -/
theorem c3_counterexample :
    cexAnt3.update_ant pow0 cexGraph3 1 (1/2) = cexAnt3
    ∧ (cexGraph3.get_availible_bags cexAnt3.current_bag cexAnt3.tour
        (cexAnt3.calculate_allowed_weight cexGraph3.max_weight)).isEmpty = false
    ∧ Colony.run_tours pow0 3 cexColony3 1 (fun _ _ => 1/2) = none := by
  refine ⟨by with_unfolding_all decide, by with_unfolding_all decide, ?_⟩
  with_unfolding_all rfl

/- ===================  C5: bounded construction  ======================== -/

theorem scanAcc_length : ∀ (l : List (Option ℚ)) (acc : Option ℚ),
    (scanAcc acc l).length = l.length := by
  intro l
  induction l with
  | nil => intro acc; rfl
  | cons p ps ih => intro acc; simp [scanAcc, ih]

theorem sum_map_div (l : List ℕ) (f : ℕ → ℚ) (c : ℚ) :
    (l.map (fun b => f b / c)).sum = (l.map f).sum / c := by
  induction l with
  | nil => simp
  | cons x xs ih => simp [ih, div_add_div_same]

theorem wheel_find_zip_some (choice : ℚ) : ∀ (ps : List ℚ) (avs : List ℕ) (x : ℚ),
    avs.length = ps.length → ps ≠ [] → choice ≤ x + ps.sum →
    (wheel_find choice (avs.zip (scanAcc (some x) (ps.map some)))).isSome := by
  intro ps
  induction ps with
  | nil => intro avs x _ hne; exact absurd rfl hne
  | cons p ps ih =>
    intro avs x hlen _ hle
    cases avs with
    | nil => simp at hlen
    | cons a avs =>
      simp only [List.map_cons, scanAcc, addOpt, List.zip_cons_cons, wheel_find]
      by_cases hc : choice ≤ x + p
      · simp [hc, wheel_find]
      · rw [if_neg hc]
        cases hps : ps with
        | nil =>
          exfalso
          rw [hps] at hle
          simp at hle
          exact hc (by linarith)
        | cons q qs =>
          have hlen' : avs.length = ps.length := by simpa using hlen
          have hle' : choice ≤ (x + p) + ps.sum := by
            rw [List.sum_cons] at hle
            linarith
          rw [← hps]
          exact ih avs (x + p) hlen' (by simp [hps]) hle'

theorem bagAt_mem {g : Graph} {b : ℕ} (hb : b < g.graph.length) : g.bagAt b ∈ g.graph := by
  unfold Graph.bagAt
  rw [List.getD_eq_getElem?_getD, List.getElem?_eq_getElem hb]
  exact List.getElem_mem _

theorem get_edge_pos {t : Tau} {n : ℕ}
    (hpos : ∀ i j, i < j → j < n → 0 < t.matrix i j)
    {i j : ℕ} (hij : i ≠ j) (hi : i < n) (hj : j < n) : 0 < t.get_edge i j := by
  unfold Tau.get_edge
  by_cases h : i < j
  · rw [if_pos h]
    exact hpos i j h hj
  · rw [if_neg h]
    exact hpos j i (by omega) hi

theorem select_path_pos_isSome {powf : ℚ → ℚ → ℚ} {g : Graph} (bag_i : ℕ)
    {avail : List ℕ} (alpha choice : ℚ)
    (hne : avail ≠ [])
    (hbag : bag_i < g.graph.length)
    (hsub : ∀ b ∈ avail, b < g.graph.length)
    (hnecur : ∀ b ∈ avail, b ≠ bag_i)
    (hpos : ∀ i j, i < j → j < g.graph.length → 0 < g.tau.matrix i j)
    (hh : ∀ b ∈ g.graph, 0 < b.h)
    (hpowf : ∀ x y, 0 < x → 0 < powf x y)
    (_hc0 : 0 ≤ choice) (hc1 : choice ≤ 1) :
    (select_path powf g bag_i avail alpha choice).isSome := by
  unfold select_path
  by_cases hl : avail.length = 1
  · simp [hl]
  · rw [if_neg hl]
    have hterm : ∀ b ∈ avail, 0 < powf (g.tau.get_edge bag_i b) alpha * (g.bagAt b).h := by
      intro b hb
      exact mul_pos
        (hpowf _ _ (get_edge_pos hpos (hnecur b hb).symm hbag (hsub b hb)))
        (hh _ (bagAt_mem (hsub b hb)))
    have hs : 0 < selection_weight_sum powf g bag_i avail alpha := by
      unfold selection_weight_sum
      apply List.sum_pos
      · intro q hq
        obtain ⟨b, hb, rfl⟩ := List.mem_map.1 hq
        exact hterm b hb
      · simp [hne]
    have hprobs : avail.map (fun bag => calculate_edge_probability powf g bag_i bag avail alpha)
        = (avail.map (fun bag => powf (g.tau.get_edge bag_i bag) alpha * (g.bagAt bag).h
            / selection_weight_sum powf g bag_i avail alpha)).map some := by
      rw [List.map_map]
      apply List.map_congr_left
      intro b _
      unfold calculate_edge_probability
      simp [Function.comp, ne_of_gt hs]
    unfold create_selection_wheel
    rw [hprobs]
    have hsum1 : (avail.map (fun bag => powf (g.tau.get_edge bag_i bag) alpha * (g.bagAt bag).h
        / selection_weight_sum powf g bag_i avail alpha)).sum = 1 := by
      rw [sum_map_div]
      exact div_self (ne_of_gt hs)
    apply wheel_find_zip_some choice _ avail 0
    · simp
    · simp [hne]
    · rw [hsum1]
      linarith

/-- The termination measure of one ant: how many bag indices of the problem
its tour has not yet visited. -/
theorem update_ant_grows {powf : ℚ → ℚ → ℚ} {g : Graph} (alpha choice : ℚ) {a : Ant}
    (hne : (g.get_availible_bags a.current_bag a.tour
      (a.calculate_allowed_weight g.max_weight)).isEmpty = false)
    (hbag : a.current_bag < g.graph.length)
    (hpos : ∀ i j, i < j → j < g.graph.length → 0 < g.tau.matrix i j)
    (hh : ∀ b ∈ g.graph, 0 < b.h)
    (hpowf : ∀ x y, 0 < x → 0 < powf x y)
    (hc0 : 0 ≤ choice) (hc1 : choice ≤ 1) :
    ∃ nb, nb < g.graph.length ∧ nb ∉ a.tour
      ∧ (a.update_ant powf g alpha choice).tour = a.tour ++ [nb]
      ∧ (a.update_ant powf g alpha choice).current_bag = nb := by
  have hne' : g.get_availible_bags a.current_bag a.tour
      (a.calculate_allowed_weight g.max_weight) ≠ [] := by
    intro h
    rw [h] at hne
    simp at hne
  have hsub : ∀ b ∈ g.get_availible_bags a.current_bag a.tour
      (a.calculate_allowed_weight g.max_weight), b < g.graph.length :=
    fun b hb => (mem_availible hb).1
  have hnecur : ∀ b ∈ g.get_availible_bags a.current_bag a.tour
      (a.calculate_allowed_weight g.max_weight), b ≠ a.current_bag :=
    fun b hb => (mem_availible hb).2.1
  have hsel := select_path_pos_isSome a.current_bag alpha choice
    hne' hbag hsub hnecur hpos hh hpowf hc0 hc1
  obtain ⟨nb, hnb⟩ := Option.isSome_iff_exists.1 hsel
  have hmem := mem_availible (select_path_mem hnb)
  refine ⟨nb, hmem.1, hmem.2.2.1, ?_, ?_⟩
  · unfold Ant.update_ant
    rw [if_neg (by simp [hne]), hnb]
  · unfold Ant.update_ant
    rw [if_neg (by simp [hne]), hnb]

theorem update_ant_finished {powf : ℚ → ℚ → ℚ} {g : Graph} {alpha choice : ℚ} {a : Ant}
    (hemp : (g.get_availible_bags a.current_bag a.tour
      (a.calculate_allowed_weight g.max_weight)).isEmpty = true) :
    a.update_ant powf g alpha choice = a := by
  unfold Ant.update_ant
  rw [if_pos hemp]

theorem mapWithIdx_mem_ex (f : ℕ → Ant → Ant) : ∀ (l : List Ant) (k : ℕ) (x : Ant),
    x ∈ mapWithIdx f k l → ∃ i a, a ∈ l ∧ x = f i a := by
  intro l
  induction l with
  | nil => intro k x h; simp [mapWithIdx] at h
  | cons y ys ih =>
    intro k x h
    rw [show mapWithIdx f k (y :: ys) = f k y :: mapWithIdx f (k + 1) ys from rfl] at h
    rcases List.mem_cons.1 h with h | h
    · exact ⟨k, y, List.mem_cons_self _ _, h⟩
    · obtain ⟨i, a, ha, hx⟩ := ih (k + 1) x h
      exact ⟨i, a, List.mem_cons_of_mem _ ha, hx⟩

theorem antMeasure_lt {g : Graph} {a a' : Ant} {nb : ℕ}
    (hnb : nb < g.graph.length) (hnotin : nb ∉ a.tour)
    (htour : a'.tour = a.tour ++ [nb]) :
    ((Finset.range g.graph.length).filter (fun i => i ∉ a'.tour)).card
    < ((Finset.range g.graph.length).filter (fun i => i ∉ a.tour)).card := by
  apply Finset.card_lt_card
  constructor
  · intro i hi
    simp only [Finset.mem_filter, Finset.mem_range, htour, List.mem_append] at hi ⊢
    exact ⟨hi.1, fun hmem => hi.2 (Or.inl hmem)⟩
  · intro hsub
    have hnb' : nb ∈ (Finset.range g.graph.length).filter (fun i => i ∉ a.tour) := by
      simp [Finset.mem_filter, Finset.mem_range, hnb, hnotin]
    have := hsub hnb'
    simp only [Finset.mem_filter, htour, List.mem_append] at this
    exact this.2 (Or.inr (List.mem_singleton_self _))

theorem antMeasure_le (g : Graph) (a : Ant) :
    ((Finset.range g.graph.length).filter (fun i => i ∉ a.tour)).card ≤ g.graph.length := by
  calc ((Finset.range g.graph.length).filter (fun i => i ∉ a.tour)).card
      ≤ (Finset.range g.graph.length).card := Finset.card_filter_le _ _
    _ = g.graph.length := Finset.card_range _

theorem antMeasure_pos {g : Graph} {a : Ant}
    (hne : (g.get_availible_bags a.current_bag a.tour
      (a.calculate_allowed_weight g.max_weight)).isEmpty = false) :
    0 < ((Finset.range g.graph.length).filter (fun i => i ∉ a.tour)).card := by
  have hne' : g.get_availible_bags a.current_bag a.tour
      (a.calculate_allowed_weight g.max_weight) ≠ [] := by
    intro h
    rw [h] at hne
    simp at hne
  obtain ⟨b, hb⟩ := List.exists_mem_of_ne_nil _ hne'
  have hmem := mem_availible hb
  apply Finset.card_pos.2
  exact ⟨b, by simp [Finset.mem_filter, Finset.mem_range, hmem.1, hmem.2.2.1]⟩

theorem run_tours_pos_isSome (powf : ℚ → ℚ → ℚ) (alpha : ℚ) :
    ∀ (fuel : ℕ) (c : Colony) (oracle : ℕ → ℕ → ℚ),
    (∀ i j, i < j → j < c.graph.graph.length → 0 < c.graph.tau.matrix i j) →
    (∀ b ∈ c.graph.graph, 0 < b.h) →
    (∀ x y, 0 < x → 0 < powf x y) →
    (∀ s k, 0 ≤ oracle s k ∧ oracle s k ≤ 1) →
    (∀ a ∈ c.ants, a.current_bag < c.graph.graph.length) →
    (∀ a ∈ c.ants,
      (c.graph.get_availible_bags a.current_bag a.tour
        (a.calculate_allowed_weight c.graph.max_weight)).isEmpty = true
      ∨ ((Finset.range c.graph.graph.length).filter (fun i => i ∉ a.tour)).card ≤ fuel) →
    (Colony.run_tours powf fuel c alpha oracle).isSome := by
  intro fuel
  induction fuel with
  | zero =>
    intro c oracle _ _ _ _ _ hinv
    rw [Colony.run_tours]
    cases hfin : c.are_all_tours_finished with
    | true => simp
    | false =>
      exfalso
      obtain ⟨a, ha, hpa⟩ := List.all_eq_false.1 hfin
      have hne : (c.graph.get_availible_bags a.current_bag a.tour
          (a.calculate_allowed_weight c.graph.max_weight)).isEmpty = false := by
        cases h : (c.graph.get_availible_bags a.current_bag a.tour
            (a.calculate_allowed_weight c.graph.max_weight)).isEmpty
        · rfl
        · exact absurd h hpa
      rcases hinv a ha with hdone | hle
      · rw [hdone] at hne
        cases hne
      · have := antMeasure_pos hne
        omega
  | succ fuel ih =>
    intro c oracle hpos hh hpowf horacle hbags hinv
    rw [Colony.run_tours]
    cases hfin : c.are_all_tours_finished with
    | true => simp
    | false =>
      simp only [Bool.false_eq_true, if_false]
      apply ih
      · simpa [Colony.time_step] using hpos
      · simpa [Colony.time_step] using hh
      · exact hpowf
      · intro s k
        exact horacle (s + 1) k
      · intro a' ha'
        simp only [Colony.time_step] at ha' ⊢
        obtain ⟨k, a, ha, rfl⟩ := mapWithIdx_mem_ex _ c.ants 0 a' ha'
        cases hdone : (c.graph.get_availible_bags a.current_bag a.tour
            (a.calculate_allowed_weight c.graph.max_weight)).isEmpty with
        | true =>
          rw [update_ant_finished hdone]
          exact hbags a ha
        | false =>
          obtain ⟨nb, hnb, _, _, hcur⟩ := update_ant_grows alpha (oracle 0 k) hdone
            (hbags a ha) hpos hh hpowf (horacle 0 k).1 (horacle 0 k).2
          rw [hcur]
          exact hnb
      · intro a' ha'
        simp only [Colony.time_step] at ha'
        obtain ⟨k, a, ha, rfl⟩ := mapWithIdx_mem_ex _ c.ants 0 a' ha'
        simp only [Colony.time_step]
        cases hdone : (c.graph.get_availible_bags a.current_bag a.tour
            (a.calculate_allowed_weight c.graph.max_weight)).isEmpty with
        | true =>
          left
          rw [update_ant_finished hdone]
          exact hdone
        | false =>
          right
          obtain ⟨nb, hnb, hnotin, htour, _⟩ := update_ant_grows alpha (oracle 0 k) hdone
            (hbags a ha) hpos hh hpowf (horacle 0 k).1 (horacle 0 k).2
          have hlt := antMeasure_lt hnb hnotin htour
          rcases hinv a ha with hd | hle
          · rw [hd] at hdone
            cases hdone
          · omega

/-- C5 (amended): whenever every canonically stored trail cell within the
item index range (the cells with i < j that initialization fills from
[0.1, 1.0); the diagonal and lower triangle, which the canonicalized reads
never touch, stay zero) is strictly positive, every item heuristic is
positive, powf preserves
positivity (as f64 powf does on these ranges), and every ant sits on a
valid item index (as random birth guarantees), construction reaches the
all-terminal state within as many synchronous time steps as the problem
has items; without that positivity there are trail states — see the
counterexample — on which construction never terminates. -/
theorem c5_construction_terminates (powf : ℚ → ℚ → ℚ) (c : Colony) (alpha : ℚ)
    (oracle : ℕ → ℕ → ℚ)
    (hpos : ∀ i j, i < j → j < c.graph.graph.length → 0 < c.graph.tau.matrix i j)
    (hh : ∀ b ∈ c.graph.graph, 0 < b.h)
    (hpowf : ∀ x y, 0 < x → 0 < powf x y)
    (horacle : ∀ s k, 0 ≤ oracle s k ∧ oracle s k ≤ 1)
    (hants : ∀ a ∈ c.ants, a.current_bag < c.graph.graph.length) :
    (Colony.run_tours powf c.graph.graph.length c alpha oracle).isSome := by
  apply run_tours_pos_isSome powf alpha c.graph.graph.length c oracle hpos hh hpowf horacle
    hants
  intro a _
  right
  exact antMeasure_le c.graph a

/-- Witness for C5 on posColony, a colony built by the model's own
Colony::new plus init_ants pipeline, whose trail store therefore has the
exact reachable shape: off-diagonal in-range cells positive, diagonal zero. -/
theorem c5_witness :
    (∀ i j, i < j → j < posColony.graph.graph.length → 0 < posColony.graph.tau.matrix i j)
    ∧ (∀ b ∈ posColony.graph.graph, 0 < b.h)
    ∧ (∀ a ∈ posColony.ants, a.current_bag < posColony.graph.graph.length)
    ∧ (∀ x y, 0 < x → 0 < pow0 x y)
    ∧ (Colony.run_tours pow0 posColony.graph.graph.length posColony 1
        (fun _ _ => 1/2)).isSome := by
  have hlen : posColony.graph.graph.length = 2 := by with_unfolding_all decide
  have hpos : ∀ i j, i < j → j < posColony.graph.graph.length →
      0 < posColony.graph.tau.matrix i j := by
    intro i j hij hj
    rw [hlen] at hj
    have hij' : i = 0 ∧ j = 1 := by omega
    rcases hij' with ⟨rfl, rfl⟩
    with_unfolding_all decide
  have hh : ∀ b ∈ posColony.graph.graph, 0 < b.h := by
    with_unfolding_all decide
  have hants : ∀ a ∈ posColony.ants, a.current_bag < posColony.graph.graph.length := by
    with_unfolding_all decide
  have hpowf : ∀ x y : ℚ, 0 < x → 0 < pow0 x y := fun _ _ h => h
  exact ⟨hpos, hh, hants, hpowf,
    c5_construction_terminates pow0 posColony 1 (fun _ _ => 1/2) hpos hh hpowf
      (fun _ _ => by norm_num) hants⟩

/-- Counterexample for C5 as stated: from the concrete all-zero-trail colony
state cexColony3 (three items), construction has not reached all-terminal
after three synchronous steps (run_tours with fuel three fails), and in fact
the colony is not finished after any three explicit time steps. -/
theorem c5_counterexample :
    Colony.run_tours pow0 cexColony3.graph.graph.length cexColony3 1 (fun _ _ => 1/2) = none
    ∧ (((cexColony3.time_step pow0 1 (fun _ => 1/2)).time_step pow0 1
        (fun _ => 1/2)).time_step pow0 1 (fun _ => 1/2)).are_all_tours_finished = false := by
  constructor
  · with_unfolding_all rfl
  · with_unfolding_all decide

/- ===================  C1: best-so-far bookkeeping  ===================== -/

theorem maxByLast_fold_spec : ∀ (l : List (ℕ × ℚ)) (x : ℕ × ℚ),
    ((l.foldl (fun acc y => if acc.2 > y.2 then acc else y) x) = x
      ∨ (l.foldl (fun acc y => if acc.2 > y.2 then acc else y) x) ∈ l)
    ∧ x.2 ≤ (l.foldl (fun acc y => if acc.2 > y.2 then acc else y) x).2
    ∧ ∀ y ∈ l, y.2 ≤ (l.foldl (fun acc y => if acc.2 > y.2 then acc else y) x).2 := by
  intro l
  induction l with
  | nil => intro x; exact ⟨Or.inl rfl, le_refl _, by simp⟩
  | cons y l ih =>
    intro x
    rw [List.foldl_cons]
    by_cases hgt : x.2 > y.2
    · rw [if_pos hgt]
      obtain ⟨hmem, hx, hall⟩ := ih x
      refine ⟨?_, hx, ?_⟩
      · rcases hmem with hm | hm
        · exact Or.inl hm
        · exact Or.inr (List.mem_cons_of_mem _ hm)
      · intro z hz
        rcases List.mem_cons.1 hz with hz | hz
        · subst hz
          exact le_trans (le_of_lt hgt) hx
        · exact hall z hz
    · rw [if_neg hgt]
      obtain ⟨hmem, hy, hall⟩ := ih y
      refine ⟨?_, le_trans (le_of_not_lt hgt) hy, ?_⟩
      · rcases hmem with hm | hm
        · rw [hm]
          exact Or.inr (List.mem_cons_self _ _)
        · exact Or.inr (List.mem_cons_of_mem _ hm)
      · intro z hz
        rcases List.mem_cons.1 hz with hz | hz
        · subst hz
          exact hy
        · exact hall z hz

theorem maxByLast_max {l : List (ℕ × ℚ)} {m : ℕ × ℚ} (h : maxByLast l = some m) :
    m ∈ l ∧ ∀ y ∈ l, y.2 ≤ m.2 := by
  cases l with
  | nil => exact Option.noConfusion h
  | cons x xs =>
    unfold maxByLast at h
    injection h with h
    obtain ⟨hmem, hx, hall⟩ := maxByLast_fold_spec xs x
    subst h
    constructor
    · rcases hmem with hm | hm
      · rw [hm]
        exact List.mem_cons_self _ _
      · exact List.mem_cons_of_mem _ hm
    · intro y hy
      rcases List.mem_cons.1 hy with hy | hy
      · subst hy
        exact hx
      · exact hall y hy

theorem enumList_get? : ∀ (vals : List ℚ) (k : ℕ) (p : ℕ × ℚ), p ∈ enumList k vals →
    k ≤ p.1 ∧ vals.get? (p.1 - k) = some p.2 := by
  intro vals
  induction vals with
  | nil => intro k p h; simp [enumList] at h
  | cons v vs ih =>
    intro k p h
    rw [show enumList k (v :: vs) = (k, v) :: enumList (k + 1) vs from rfl] at h
    rcases List.mem_cons.1 h with h | h
    · subst h
      simp
    · obtain ⟨hk, hget⟩ := ih (k + 1) p h
      refine ⟨by omega, ?_⟩
      rw [show p.1 - k = (p.1 - (k + 1)) + 1 from by omega]
      simpa using hget

theorem enumList_mem_val : ∀ (vals : List ℚ) (k : ℕ) (v : ℚ), v ∈ vals →
    ∃ idx, (idx, v) ∈ enumList k vals := by
  intro vals
  induction vals with
  | nil => intro k v h; simp at h
  | cons w vs ih =>
    intro k v h
    rw [show enumList k (w :: vs) = (k, w) :: enumList (k + 1) vs from rfl]
    rcases List.mem_cons.1 h with h | h
    · subst h
      exact ⟨k, List.mem_cons_self _ _⟩
    · obtain ⟨idx, hidx⟩ := ih (k + 1) v h
      exact ⟨idx, List.mem_cons_of_mem _ hidx⟩

theorem set_best_tour_some_none {c c' : Colony}
    (h : c.set_best_tour = some (none, c')) :
    c'.best_path.2.1 ∈ c.ants.map (fun a => a.current_cost)
    ∧ (∀ a ∈ c.ants, a.current_cost ≤ c'.best_path.2.1)
    ∧ c'.num_of_fitness_evaluations = c.num_of_fitness_evaluations + (c.ants.length : Int)
    ∧ c'.ants = c.ants
    ∧ c'.graph = c.graph := by
  unfold Colony.set_best_tour at h
  split at h
  · injection h with h
    exact Option.noConfusion (congrArg Prod.fst h)
  · split at h
    · exact Option.noConfusion h
    · rename_i iv hmax
      split at h
      · exact Option.noConfusion h
      · rename_i top hget
        injection h with h
        have hc' : ({ c with
            num_of_fitness_evaluations := c.num_of_fitness_evaluations + (c.ants.length : Int),
            best_path := (top.tour, top.current_cost, top.current_weight) } : Colony) = c' :=
          congrArg Prod.snd h
        subst hc'
        obtain ⟨hmem, hmax'⟩ := maxByLast_max hmax
        obtain ⟨_, hgetv⟩ := enumList_get? _ 0 iv hmem
        rw [Nat.sub_zero, List.get?_map, hget] at hgetv
        have htopv : top.current_cost = iv.2 := by
          injection hgetv
        refine ⟨?_, ?_, rfl, rfl, rfl⟩
        · simp only []
          exact List.mem_map_of_mem _ (List.get?_mem hget)
        · intro a ha
          simp only []
          rw [htopv]
          obtain ⟨idx, hidx⟩ := enumList_mem_val _ 0 a.current_cost
            (List.mem_map_of_mem _ ha)
          exact hmax' _ hidx

theorem update_edges_fields {c c' : Colony} {e p : ℚ}
    (h : c.update_edges e p = some c') :
    ∃ c1, c.set_best_tour = some (none, c1) ∧ c'.best_path = c1.best_path
      ∧ c'.num_of_fitness_evaluations = c1.num_of_fitness_evaluations
      ∧ c'.ants = c1.ants := by
  unfold Colony.update_edges at h
  split at h
  · exact Option.noConfusion h
  · exact Option.noConfusion h
  · rename_i msg c1 heq
    cases hd : depositAll (c1.graph.evaporation_edges e) c1.ants p with
    | none =>
      rw [hd] at h
      exact Option.noConfusion h
    | some g2 =>
      rw [hd] at h
      injection h with h
      subst h
      exact ⟨c1, heq, rfl, rfl, rfl⟩

/-- C1 (amended): after each iteration's trail update the recorded best cost
equals the maximum current cost among that iteration's ants — the record is
replaced unconditionally by the iteration's best, never compared against the
previous overall best, so it can regress across iterations. -/
theorem c1_best_tour_overwritten (c : Colony) (e p : ℚ) (v : ℚ)
    (h : (c.update_edges e p).map (fun d => d.best_path.2.1) = some v) :
    v ∈ c.ants.map (fun a => a.current_cost) ∧ ∀ a ∈ c.ants, a.current_cost ≤ v := by
  cases hu : c.update_edges e p with
  | none =>
    rw [hu] at h
    exact Option.noConfusion h
  | some c' =>
    rw [hu] at h
    injection h with h
    obtain ⟨c1, hsb, hbp, _, _⟩ := update_edges_fields hu
    obtain ⟨hmem, hmax, _, _, _⟩ := set_best_tour_some_none hsb
    subst h
    simp only []
    rw [hbp]
    exact ⟨hmem, hmax⟩

/-- Witness for C1 on the concrete colony cexColonyBest. -/
theorem c1_witness :
    ((cexColonyBest.update_edges 1 1).map (fun d => d.best_path.2.1) = some 10)
    ∧ ((10 : ℚ) ∈ cexColonyBest.ants.map (fun a => a.current_cost)
      ∧ ∀ a ∈ cexColonyBest.ants, a.current_cost ≤ 10) := by
  have h : (cexColonyBest.update_edges 1 1).map (fun d => d.best_path.2.1) = some 10 := by
    with_unfolding_all decide
  exact ⟨h, c1_best_tour_overwritten cexColonyBest 1 1 10 h⟩

/-- Counterexample for C1 as stated: a full iteration protocol (trail update,
repopulation, construction, trail update) on cexColonyBest records best cost
10 after the first update and best cost 5 after the second — the best-so-far
record regresses, because set_best_tour replaces it unconditionally. -/
theorem c1_counterexample :
    ((cexColonyBest.update_edges 1 1).bind (fun d1 =>
      (Colony.run_tours pow0 2 (d1.init_ants 1 (fun _ => 1)) 1 (fun _ _ => 1/2)).bind
        (fun d2 => (d2.update_edges 1 1).map (fun d3 =>
          (d1.best_path.2.1, d3.best_path.2.1)))))
    = some (10, 5)
    ∧ ¬ ((10 : ℚ) ≤ 5) := by
  constructor
  · with_unfolding_all rfl
  · with_unfolding_all decide

/- ===================  C7: evaluation counter  ========================== -/

theorem mapWithIdx_length (f : ℕ → Ant → Ant) : ∀ (l : List Ant) (k : ℕ),
    (mapWithIdx f k l).length = l.length := by
  intro l
  induction l with
  | nil => intro k; rfl
  | cons x xs ih => intro k; simp [mapWithIdx, ih]

theorem run_tours_preserves (powf : ℚ → ℚ → ℚ) (alpha : ℚ) : ∀ (fuel : ℕ)
    (c c' : Colony) (oracle : ℕ → ℕ → ℚ),
    Colony.run_tours powf fuel c alpha oracle = some c' →
    c'.num_of_fitness_evaluations = c.num_of_fitness_evaluations
    ∧ c'.ants.length = c.ants.length := by
  intro fuel
  induction fuel with
  | zero =>
    intro c c' oracle h
    rw [Colony.run_tours] at h
    split at h
    · injection h with h
      subst h
      exact ⟨rfl, rfl⟩
    · exact Option.noConfusion h
  | succ fuel ih =>
    intro c c' oracle h
    rw [Colony.run_tours] at h
    split at h
    · injection h with h
      subst h
      exact ⟨rfl, rfl⟩
    · obtain ⟨hnum, hlen⟩ := ih _ c' _ h
      constructor
      · rw [hnum]
        rfl
      · rw [hlen]
        simp [Colony.time_step, mapWithIdx_length]

theorem init_ants_fields (c : Colony) (n : Int) (starts : ℕ → ℕ) :
    (c.init_ants n starts).ants.length = n.toNat
    ∧ (c.init_ants n starts).num_of_fitness_evaluations = c.num_of_fitness_evaluations
    ∧ (c.init_ants n starts).graph = c.graph := by
  refine ⟨?_, rfl, rfl⟩
  simp [Colony.init_ants]

theorem update_edges_counter {c c' : Colony} {e p : ℚ} (h : c.update_edges e p = some c') :
    c'.num_of_fitness_evaluations = c.num_of_fitness_evaluations + (c.ants.length : Int)
    ∧ c'.ants.length = c.ants.length := by
  obtain ⟨c1, hsb, _, hnum, hants⟩ := update_edges_fields h
  obtain ⟨_, _, hnum1, hants1, _⟩ := set_best_tour_some_none hsb
  constructor
  · rw [hnum, hnum1]
  · rw [hants, hants1]

theorem runLoop_counter (powf : ℚ → ℚ → ℚ) (alpha e p : ℚ) (n budget : Int) (tf : ℕ)
    (hn : 0 < n) : ∀ (fuel : ℕ) (c c' : Colony) (starts : ℕ → ℕ → ℕ)
    (oracles : ℕ → ℕ → ℕ → ℚ),
    runLoop powf alpha e p n budget tf fuel c starts oracles = some c' →
    budget ≤ c'.num_of_fitness_evaluations
    ∧ ∃ k : ℕ, c'.num_of_fitness_evaluations
        = c.num_of_fitness_evaluations + (k : Int) * n := by
  intro fuel
  induction fuel with
  | zero =>
    intro c c' starts oracles h
    rw [runLoop] at h
    split at h
    · exact Option.noConfusion h
    · rename_i hge
      injection h with h
      subst h
      exact ⟨by omega, 0, by simp⟩
  | succ fuel ih =>
    intro c c' starts oracles h
    rw [runLoop] at h
    split at h
    · cases hrt : Colony.run_tours powf tf (c.init_ants n (starts 0)) alpha (oracles 0) with
      | none =>
        rw [hrt] at h
        exact Option.noConfusion h
      | some c1 =>
        rw [hrt] at h
        rw [Option.some_bind] at h
        cases hue : c1.update_edges e p with
        | none =>
          rw [hue] at h
          exact Option.noConfusion h
        | some c2 =>
          rw [hue] at h
          rw [Option.some_bind] at h
          obtain ⟨hbud, k, hk⟩ := ih c2 c' _ _ h
          obtain ⟨hnum1, hlen1⟩ := run_tours_preserves powf alpha tf _ c1 _ hrt
          obtain ⟨hnum2, _⟩ := update_edges_counter hue
          obtain ⟨hlen0, hnum0, _⟩ := init_ants_fields c n (starts 0)
          refine ⟨hbud, k + 1, ?_⟩
          rw [hk, hnum2, hnum1, hnum0, hlen1, hlen0,
            Int.toNat_of_nonneg (le_of_lt hn)]
          push_cast
          ring
    · rename_i hge
      injection h with h
      subst h
      exact ⟨by omega, 0, by simp⟩

/-- C7: each completed iteration adds exactly the population size to the
evaluation counter (one evaluation per terminal ant), so the counter after
the bootstrap iteration is the population size and after k further full
iterations it is exactly (k+1) times the population size; the counter is
monotone and the run loop iterates until it reaches the caller-supplied
fitness-evaluation budget. -/
theorem c7_evaluation_counter (powf : ℚ → ℚ → ℚ) (alpha e p : ℚ) (n budget : Int)
    (tf lf : ℕ) (g : Graph) (tauOracle : ℕ → ℕ → ℚ) (starts : ℕ → ℕ → ℕ)
    (oracles : ℕ → ℕ → ℕ → ℚ) (hn : 0 < n) (m1 m2 : Int)
    (h1 : ((Colony.run_tours powf tf ((Colony.new g tauOracle).init_ants n (starts 0)) alpha
        (oracles 0)).bind (fun cb => cb.update_edges e p)).map
        (fun d => d.num_of_fitness_evaluations) = some m1)
    (h2 : (((Colony.run_tours powf tf ((Colony.new g tauOracle).init_ants n (starts 0)) alpha
        (oracles 0)).bind (fun cb => cb.update_edges e p)).bind
        (fun c2 => runLoop powf alpha e p n budget tf lf c2 (fun k => starts (k + 1))
          (fun k => oracles (k + 1)))).map
        (fun d => d.num_of_fitness_evaluations) = some m2) :
    m1 = n ∧ (∃ k : ℕ, m2 = ((k : Int) + 1) * n) ∧ budget ≤ m2 ∧ m1 ≤ m2 := by
  cases hrt : Colony.run_tours powf tf ((Colony.new g tauOracle).init_ants n (starts 0)) alpha
      (oracles 0) with
  | none =>
    rw [hrt] at h1
    exact Option.noConfusion h1
  | some cb =>
    rw [hrt, Option.some_bind] at h1 h2
    cases hue : cb.update_edges e p with
    | none =>
      rw [hue] at h1
      exact Option.noConfusion h1
    | some c2 =>
      rw [hue] at h1
      rw [hue, Option.some_bind] at h2
      injection h1 with h1
      simp only [] at h1
      obtain ⟨hnum1, hlen1⟩ := run_tours_preserves powf alpha tf _ cb _ hrt
      obtain ⟨hnum2, _⟩ := update_edges_counter hue
      obtain ⟨hlen0, hnum0, _⟩ := init_ants_fields (Colony.new g tauOracle) n (starts 0)
      have hm1 : m1 = n := by
        rw [← h1, hnum2, hnum1, hnum0, hlen1, hlen0, Int.toNat_of_nonneg (le_of_lt hn)]
        simp [Colony.new]
      cases hrl : runLoop powf alpha e p n budget tf lf c2 (fun k => starts (k + 1))
          (fun k => oracles (k + 1)) with
      | none =>
        rw [hrl] at h2
        exact Option.noConfusion h2
      | some c3 =>
        rw [hrl] at h2
        injection h2 with h2
        simp only [] at h2
        obtain ⟨hbud, k, hk⟩ := runLoop_counter powf alpha e p n budget tf hn lf c2 c3 _ _ hrl
        have hc2 : c2.num_of_fitness_evaluations = n := by
          rw [hnum2, hnum1, hnum0, hlen1, hlen0, Int.toNat_of_nonneg (le_of_lt hn)]
          simp [Colony.new]
        refine ⟨hm1, ⟨k, ?_⟩, ?_, ?_⟩
        · rw [← h2, hk, hc2]
          ring
        · rw [← h2]
          exact hbud
        · rw [← h2, hk, hc2, hm1]
          have : 0 ≤ (k : Int) * n := mul_nonneg (by positivity) (le_of_lt hn)
          linarith

/-- Witness for C7 at a concrete bootstrap-plus-empty-loop run (population 1,
budget 1) on cexGraphBest. -/
theorem c7_witness :
    (0 : Int) < 1
    ∧ ((Colony.run_tours pow0 1 ((Colony.new cexGraphBest (fun _ _ => 1/2)).init_ants 1
        (fun _ => 0)) 1 (fun _ _ => 1/2)).bind (fun cb => cb.update_edges 1 1)).map
        (fun d => d.num_of_fitness_evaluations) = some 1
    ∧ (((Colony.run_tours pow0 1 ((Colony.new cexGraphBest (fun _ _ => 1/2)).init_ants 1
        (fun _ => 0)) 1 (fun _ _ => 1/2)).bind (fun cb => cb.update_edges 1 1)).bind
        (fun c2 => runLoop pow0 1 1 1 1 1 1 0 c2 (fun _ _ => 0)
          (fun _ _ _ => 1/2))).map (fun d => d.num_of_fitness_evaluations) = some 1
    ∧ ((1 : Int) = 1 ∧ (∃ k : ℕ, (1 : Int) = ((k : Int) + 1) * 1) ∧ (1 : Int) ≤ 1
        ∧ (1 : Int) ≤ 1) := by
  have h1 : ((Colony.run_tours pow0 1 ((Colony.new cexGraphBest (fun _ _ => 1/2)).init_ants 1
      (fun _ => 0)) 1 (fun _ _ => 1/2)).bind (fun cb => cb.update_edges 1 1)).map
      (fun d => d.num_of_fitness_evaluations) = some 1 := by
    with_unfolding_all decide
  have h2 : (((Colony.run_tours pow0 1 ((Colony.new cexGraphBest (fun _ _ => 1/2)).init_ants 1
      (fun _ => 0)) 1 (fun _ _ => 1/2)).bind (fun cb => cb.update_edges 1 1)).bind
      (fun c2 => runLoop pow0 1 1 1 1 1 1 0 c2 (fun _ _ => 0)
        (fun _ _ _ => 1/2))).map (fun d => d.num_of_fitness_evaluations) = some 1 := by
    with_unfolding_all decide
  exact ⟨by decide, h1, h2,
    c7_evaluation_counter pow0 1 1 1 1 1 1 0 cexGraphBest (fun _ _ => 1/2) (fun _ _ => 0)
      (fun _ _ _ => 1/2) (by decide) 1 1 h1 h2⟩

/- ===================  C6: the result record  =========================== -/

/-- C6 (amended): the record a completed run returns holds exactly the four
score entries — initial best cost, initial average, final best cost, final
average — in insertion order; the best tour (the ordered item ids) is not
part of the returned value. -/
theorem c6_result_record (powf : ℚ → ℚ → ℚ) (lines : List String)
    (alpha beta e : ℚ) (n fe : Int) (p : ℚ) (tauO : ℕ → ℕ → ℚ) (starts : ℕ → ℕ → ℕ)
    (oracles : ℕ → ℕ → ℕ → ℚ) (tf lf : ℕ) (res : List (String × ℚ))
    (h : run powf lines alpha beta e n fe p tauO starts oracles tf lf = some res) :
    res.map Prod.fst = [r"initial_score", r"initial_avg", r"final_score", r"final_avg"] := by
  unfold run at h
  cases h0 : init_aco powf lines n beta tauO (starts 0) with
  | none =>
    rw [h0] at h
    exact Option.noConfusion h
  | some col =>
    rw [h0, Option.some_bind] at h
    cases h1 : Colony.run_tours powf tf col alpha (oracles 0) with
    | none =>
      rw [h1] at h
      exact Option.noConfusion h
    | some c1 =>
      rw [h1, Option.some_bind] at h
      cases h2 : c1.update_edges e p with
      | none =>
        rw [h2] at h
        exact Option.noConfusion h
      | some c2 =>
        rw [h2, Option.some_bind] at h
        cases h3 : runLoop powf alpha e p n fe tf lf c2 (fun k => starts (k + 1))
            (fun k => oracles (k + 1)) with
        | none =>
          rw [h3] at h
          exact Option.noConfusion h
        | some c3 =>
          rw [h3] at h
          injection h with h
          subst h
          rfl

/-- Witness for C6 at the concrete completed run on lines6. -/
theorem c6_witness :
    run pow0 lines6 1 1 1 1 1 1 (fun _ _ => 1/2) (fun _ _ => 0) (fun _ _ _ => 1/2) 1 1
      = some [(r"initial_score", 7), (r"initial_avg", 7), (r"final_score", 7),
        (r"final_avg", 7)]
    ∧ ([((r"initial_score" : String), (7 : ℚ)), (r"initial_avg", 7), (r"final_score", 7),
        (r"final_avg", 7)].map Prod.fst
      = [r"initial_score", r"initial_avg", r"final_score", r"final_avg"]) := by
  have h : run pow0 lines6 1 1 1 1 1 1 (fun _ _ => 1/2) (fun _ _ => 0) (fun _ _ _ => 1/2) 1 1
      = some [(r"initial_score", 7), (r"initial_avg", 7), (r"final_score", 7),
        (r"final_avg", 7)] := by
    with_unfolding_all decide
  exact ⟨h, c6_result_record pow0 lines6 1 1 1 1 1 1 (fun _ _ => 1/2) (fun _ _ => 0)
    (fun _ _ _ => 1/2) 1 1 _ h⟩

/-- Counterexample for C6 as stated: the concrete completed run on lines6
returns a record of exactly four entries, the four scalar scores — no entry
holds the best tour's ordered item ids. -/
theorem c6_counterexample :
    (run pow0 lines6 1 1 1 1 1 1 (fun _ _ => 1/2) (fun _ _ => 0) (fun _ _ _ => 1/2) 1 1).map
      (fun res => (res.map Prod.fst, res.length))
    = some ([r"initial_score", r"initial_avg", r"final_score", r"final_avg"], 4) := by
  with_unfolding_all decide

/- ===================  C4: input validation  ============================ -/

/-- C4 (amended): loading never produces an error value.  A capacity line
that is missing its prefix or fails to parse makes load_data panic (the
modelled none) instead of surfacing a MalformedInputError, and bag parsing
performs no sign check at all: any successfully parsed bag list — including
one with non-positive weights — yields a fully constructed Problem. -/
theorem c4_load_data_behavior (powf : ℚ → ℚ → ℚ) (beta : ℚ) :
    (∀ (first : String) (rest : List String),
      ((removeStart first (r"security van capacity: ")).bind parseNum) = none →
      load_data powf beta (first :: rest) = none)
    ∧ (∀ (cap : ℚ) (bags : List Bag) (first : String) (rest : List String),
      parseBags powf beta 0 (first :: rest) = some bags →
      ((removeStart first (r"security van capacity: ")).bind parseNum) = some cap →
      load_data powf beta (first :: rest) = some (cap, bags)) := by
  constructor
  · intro first rest hcap
    unfold load_data
    cases hpb : parseBags powf beta 0 (first :: rest) with
    | none => rfl
    | some bags => simp [hcap]
  · intro cap bags first rest hpb hcap
    unfold load_data
    rw [hpb]
    simp [hcap]

set_option maxRecDepth 4000 in
/-- Witness for C4: the malformed-capacity input panics, and linesNeg (bag
weight -5) is loaded into a Problem without any failure. -/
theorem c4_witness :
    (((removeStart (r"van capacity 10") (r"security van capacity: ")).bind parseNum) = none
      ∧ load_data pow0 1 [r"van capacity 10"] = none)
    ∧ (parseBags pow0 1 0 linesNeg = some [⟨0, -5, 3, 3 / (-5), pow0 (3 / (-5)) 1⟩]
      ∧ ((removeStart (r"security van capacity: 10")
          (r"security van capacity: ")).bind parseNum) = some 10
      ∧ load_data pow0 1 linesNeg
        = some (10, [⟨0, -5, 3, 3 / (-5), pow0 (3 / (-5)) 1⟩])) := by
  have hbad : ((removeStart (r"van capacity 10")
      (r"security van capacity: ")).bind parseNum) = none := by
    with_unfolding_all decide
  have hpb : parseBags pow0 1 0 linesNeg = some [⟨0, -5, 3, 3 / (-5), pow0 (3 / (-5)) 1⟩] := by
    with_unfolding_all decide
  have hcap : ((removeStart (r"security van capacity: 10")
      (r"security van capacity: ")).bind parseNum) = some 10 := by
    with_unfolding_all decide
  exact ⟨⟨hbad, (c4_load_data_behavior pow0 1).1 (r"van capacity 10") [] hbad⟩,
    ⟨hpb, hcap, (c4_load_data_behavior pow0 1).2 10 _ (r"security van capacity: 10")
      [r"bag 1", r"weight: -5", r"value: 3"] hpb hcap⟩⟩

set_option maxRecDepth 4000 in
/-- Counterexample for C4 as stated: the input linesNeg declares a bag of
weight -5, yet loading succeeds and constructs the full Problem containing
that non-positive-weight bag — no MalformedInputError is raised. -/
theorem c4_counterexample :
    (load_data pow0 1 linesNeg).map
      (fun pr => (pr.1, pr.2.map (fun b => (b.weight, b.cost))))
    = some (10, [(-5, 3)])
    ∧ (-5 : ℚ) ≤ 0 := by
  constructor
  · with_unfolding_all decide
  · with_unfolding_all decide
